import Mathlib

/-!
Verification of the incremental SSE response decoder of the Garam_backend
chat client (`streamChat` in `src/pages/Index.tsx`).

Text is modelled as `List Char` (JavaScript strings at the code-unit level).
The stream driver, line reassembly, frame classification, payload decoding
and message accumulation are embedded as executable Lean functions that
mirror the source line by line.  `JSON.parse` together with the
`choices[0].delta.content` lookup is a platform function, not repository
code; it is modelled from the spec as a small recursive-descent JSON parser.
-/

namespace Garam

/-- Whitespace as relevant to the protocol text (space, tab, LF, CR).
JavaScript `trim` strips a slightly larger Unicode class; the protocol
only ever produces these four. -/
def isWsC (c : Char) : Bool :=
  c = ' ' || c = '\t' || c = '\n' || c = '\r'

/-- Strip leading whitespace, as the leading half of JavaScript `trim`. -/
def trimStart (l : List Char) : List Char := l.dropWhile isWsC

/-- Strip trailing whitespace, as the trailing half of JavaScript `trim`. -/
def trimEnd (l : List Char) : List Char := (l.reverse.dropWhile isWsC).reverse

/-- JavaScript `String.prototype.trim` on a list of characters. -/
def trim (l : List Char) : List Char := trimEnd (trimStart l)

/-- Lines 89 of the source: `if (line.endsWith("\r")) line = line.slice(0, -1)`. -/
def stripCR (l : List Char) : List Char :=
  if l.getLast? = some '\r' then l.dropLast else l

/-- The line reassembler's search primitive (line 85 of the source:
`textBuffer.indexOf("\n")` followed by the two slices): split a buffer at
its first line feed, returning the raw line before it and the rest after
it, or `none` when no line feed is present. -/
def splitFirstNL : List Char → Option (List Char × List Char)
  | [] => none
  | c :: cs =>
    if c = '\n' then some ([], cs)
    else
      match splitFirstNL cs with
      | none => none
      | some (l, r) => some (c :: l, r)

@[simp] theorem splitFirstNL_nil : splitFirstNL [] = none := rfl

theorem splitFirstNL_cons (c : Char) (cs : List Char) :
    splitFirstNL (c :: cs) =
      if c = '\n' then some ([], cs)
      else
        match splitFirstNL cs with
        | none => none
        | some (l, r) => some (c :: l, r) := rfl

theorem splitFirstNL_eq_none {b : List Char} :
    splitFirstNL b = none ↔ '\n' ∉ b := by
  induction b with
  | nil => simp
  | cons c cs ih =>
    rw [splitFirstNL_cons]
    by_cases hc : c = '\n'
    · subst hc; simp
    · rw [if_neg hc]
      cases hs : splitFirstNL cs with
      | none =>
        have hmem := ih.mp hs
        simp [List.mem_cons, hmem, Ne.symm hc]
      | some p =>
        obtain ⟨l, r⟩ := p
        have hmem : '\n' ∈ cs := by
          by_contra hn
          rw [ih.mpr hn] at hs
          cases hs
        simp [List.mem_cons, hmem]

theorem splitFirstNL_some {b l r : List Char}
    (h : splitFirstNL b = some (l, r)) :
    b = l ++ '\n' :: r ∧ '\n' ∉ l := by
  induction b generalizing l r with
  | nil => simp at h
  | cons c cs ih =>
    rw [splitFirstNL_cons] at h
    by_cases hc : c = '\n'
    · subst hc
      rw [if_pos rfl] at h
      simp at h
      obtain ⟨h1, h2⟩ := h
      subst h1; subst h2; simp
    · rw [if_neg hc] at h
      cases hs : splitFirstNL cs with
      | none => rw [hs] at h; cases h
      | some p =>
        obtain ⟨l', r'⟩ := p
        rw [hs] at h
        simp at h
        obtain ⟨h1, h2⟩ := h
        obtain ⟨hb, hnl⟩ := ih hs
        subst h1; subst h2
        constructor
        · rw [hb]; simp
        · simp [List.mem_cons, hnl, Ne.symm hc]

theorem splitFirstNL_length {b l r : List Char}
    (h : splitFirstNL b = some (l, r)) : r.length < b.length := by
  obtain ⟨hb, _⟩ := splitFirstNL_some h
  subst hb; simp; omega

theorem splitFirstNL_append_some {a b l r : List Char}
    (h : splitFirstNL a = some (l, r)) :
    splitFirstNL (a ++ b) = some (l, r ++ b) := by
  induction a generalizing l r with
  | nil => simp at h
  | cons c cs ih =>
    rw [splitFirstNL_cons] at h
    rw [List.cons_append, splitFirstNL_cons]
    by_cases hc : c = '\n'
    · subst hc
      rw [if_pos rfl] at h ⊢
      simp at h
      obtain ⟨h1, h2⟩ := h
      subst h1; subst h2; rfl
    · rw [if_neg hc] at h ⊢
      cases hs : splitFirstNL cs with
      | none => rw [hs] at h; cases h
      | some p =>
        obtain ⟨l', r'⟩ := p
        rw [hs] at h
        simp at h
        obtain ⟨h1, h2⟩ := h
        subst h1; subst h2
        rw [ih hs]

theorem splitFirstNL_of_noNL {a : List Char} (h : '\n' ∉ a) (b : List Char) :
    splitFirstNL (a ++ '\n' :: b) = some (a, b) := by
  induction a with
  | nil => simp [splitFirstNL_cons]
  | cons c cs ih =>
    simp only [List.mem_cons, not_or] at h
    obtain ⟨hc, hcs⟩ := h
    rw [List.cons_append, splitFirstNL_cons, if_neg (Ne.symm hc), ih hcs]

/-! ## JSON payload decoding -/

/-- The left curly brace character. -/
def lbCh : Char := Char.ofNat 123

/-- The right curly brace character. -/
def rbCh : Char := Char.ofNat 125

/-- The double-quote character. -/
def qCh : Char := Char.ofNat 34

/-- The backslash character. -/
def bsCh : Char := Char.ofNat 92

/-- Structured values produced by decoding a data-frame payload.
Numbers are kept as their raw character run; no claim depends on
numeric values. -/
inductive JsonVal where
  | null
  | bool (b : Bool)
  | num (raw : List Char)
  | str (s : List Char)
  | arr (items : List JsonVal)
  | obj (fields : List (List Char × JsonVal))

/-- Skip JSON insignificant whitespace. -/
def skipWs (l : List Char) : List Char := l.dropWhile isWsC

/-- Result of an escape character in a JSON string literal. -/
def escChar (e : Char) : Option Char :=
  if e = qCh then some qCh
  else if e = bsCh then some bsCh
  else if e = '/' then some '/'
  else if e = 'b' then some (Char.ofNat 8)
  else if e = 'f' then some (Char.ofNat 12)
  else if e = 'n' then some '\n'
  else if e = 'r' then some '\r'
  else if e = 't' then some '\t'
  else none

/-- Whether a character is a hexadecimal digit. -/
def isHexDigitC (c : Char) : Bool :=
  c.isDigit || ('a' ≤ c && c ≤ 'f') || ('A' ≤ c && c ≤ 'F')

/-- Numeric value of a hexadecimal digit. -/
def hexVal (c : Char) : Nat :=
  if c.isDigit then c.toNat - 48
  else if 'a' ≤ c then c.toNat - 87
  else c.toNat - 55

/-- Body of a JSON string literal, after the opening quote: returns the
decoded characters and the input after the closing quote.  Raw control
characters terminate with failure, as in `JSON.parse` (this is what makes
a payload whose string was cut before its closing quote undecodable). -/
def parseStringBody : Nat → List Char → Option (List Char × List Char)
  | 0, _ => none
  | _ + 1, [] => none
  | f + 1, c :: rest =>
    if c = qCh then some ([], rest)
    else if c = bsCh then
      match rest with
      | [] => none
      | e :: rest2 =>
        if e = 'u' then
          match rest2 with
          | a :: b :: c2 :: d :: rest3 =>
            if isHexDigitC a && isHexDigitC b && isHexDigitC c2 && isHexDigitC d then
              (parseStringBody f rest3).map
                (fun p =>
                  (Char.ofNat
                      (hexVal a * 4096 + hexVal b * 256 + hexVal c2 * 16 + hexVal d)
                    :: p.1, p.2))
            else none
          | _ => none
        else
          match escChar e with
          | some ec => (parseStringBody f rest2).map (fun p => (ec :: p.1, p.2))
          | none => none
    else if c.toNat < 32 then none
    else (parseStringBody f rest).map (fun p => (c :: p.1, p.2))

/-- Characters that may occur in a JSON number token.  The number grammar
is modelled leniently as a token run; no claim depends on rejecting
ill-formed numbers. -/
def isNumChar (c : Char) : Bool :=
  c.isDigit || c = '-' || c = '+' || c = '.' || c = 'e' || c = 'E'

/-- A JSON number token: the raw run and the remaining input. -/
def parseNumber (input : List Char) : Option (List Char × List Char) :=
  let n := input.takeWhile isNumChar
  if n.isEmpty then none else some (n, input.dropWhile isNumChar)

/-- Mode tag for the single-function recursive-descent parser. -/
inductive PMode where
  | val
  | fields
  | items

/-- Intermediate parser results, one constructor per mode. -/
inductive PRes where
  | v (j : JsonVal)
  | fs (l : List (List Char × JsonVal))
  | it (l : List JsonVal)

def sTrue : String := "true"

def sFalse : String := "false"

def sNull : String := "null"

/-- Modelled from the spec: structured decoding of a data-frame payload
(`JSON.parse` in the source is a platform function).  Recursive-descent
parser over values, object field lists and array item lists, with fuel
bounding the recursion depth. -/
def parseCore : Nat → PMode → List Char → Option (PRes × List Char)
  | 0, _, _ => none
  | f + 1, PMode.val, input =>
    match skipWs input with
    | [] => none
    | c :: rest =>
      if c = lbCh then
        match skipWs rest with
        | [] => none
        | c2 :: r2 =>
          if c2 = rbCh then some (.v (.obj []), r2)
          else
            match parseCore f .fields (c2 :: r2) with
            | some (.fs l, r3) => some (.v (.obj l), r3)
            | _ => none
      else if c = '[' then
        match skipWs rest with
        | [] => none
        | c2 :: r2 =>
          if c2 = ']' then some (.v (.arr []), r2)
          else
            match parseCore f .items (c2 :: r2) with
            | some (.it l, r3) => some (.v (.arr l), r3)
            | _ => none
      else if c = qCh then
        match parseStringBody (rest.length + 1) rest with
        | some (s, r2) => some (.v (.str s), r2)
        | none => none
      else if sTrue.data.isPrefixOf (c :: rest) then
        some (.v (.bool true), (c :: rest).drop 4)
      else if sFalse.data.isPrefixOf (c :: rest) then
        some (.v (.bool false), (c :: rest).drop 5)
      else if sNull.data.isPrefixOf (c :: rest) then
        some (.v .null, (c :: rest).drop 4)
      else
        match parseNumber (c :: rest) with
        | some (n, r2) => some (.v (.num n), r2)
        | none => none
  | f + 1, PMode.fields, input =>
    match skipWs input with
    | [] => none
    | c :: rest =>
      if c = qCh then
        match parseStringBody (rest.length + 1) rest with
        | some (k, r2) =>
          match skipWs r2 with
          | ':' :: r3 =>
            (do
              let (res, r4) ← parseCore f .val r3
              match res with
              | .v j =>
                match skipWs r4 with
                | ',' :: r5 =>
                  match parseCore f .fields r5 with
                  | some (.fs l, r6) => some (.fs ((k, j) :: l), r6)
                  | _ => none
                | c5 :: r5 =>
                  if c5 = rbCh then some (.fs [(k, j)], r5) else none
                | [] => none
              | _ => none)
          | _ => none
        | none => none
      else none
  | f + 1, PMode.items, input =>
    match parseCore f .val input with
    | some (.v j, r1) =>
      match skipWs r1 with
      | ',' :: r2 =>
        match parseCore f .items r2 with
        | some (.it l, r3) => some (.it (j :: l), r3)
        | _ => none
      | ']' :: r2 => some (.it [j], r2)
      | _ => none
    | _ => none

/-- Modelled from the spec: `JSON.parse(jsonStr)`.  Succeeds only when a
single value consumes the whole payload up to trailing whitespace. -/
def jsonParse (s : List Char) : Option JsonVal :=
  match parseCore (2 * s.length + 2) .val s with
  | some (.v j, rest) => if skipWs rest = [] then some j else none
  | _ => none

/-- Member access on a decoded object (`undefined`, i.e. `none`, on
non-objects and absent keys).  Duplicate keys resolve to the last one,
as in JavaScript. -/
def jGet (j : JsonVal) (key : List Char) : Option JsonVal :=
  match j with
  | .obj l => (l.reverse.find? (fun p => p.1 = key)).map Prod.snd
  | _ => none

/-- Element access `?.[0]` on a decoded array. -/
def jIdx0 (j : JsonVal) : Option JsonVal :=
  match j with
  | .arr (x :: _) => some x
  | _ => none

def sChoices : String := "choices"

def sDelta : String := "delta"

def sContent : String := "content"

/-- Modelled from the spec: the lookup
`parsed.choices?.[0]?.delta?.content as string | undefined` (source lines
101 and 132); yields the delta text only when the field is present and a
string. -/
def deltaContent (j : JsonVal) : Option (List Char) :=
  match jGet j sChoices.data with
  | some cs =>
    match jIdx0 cs with
    | some c0 =>
      match jGet c0 sDelta.data with
      | some d =>
        match jGet d sContent.data with
        | some (.str s) => some s
        | _ => none
      | none => none
    | none => none
  | none => none

/-- The payload decoder: `none` when `JSON.parse` throws (a malformed
payload), `some none` when it succeeds but no string delta is present,
`some (some t)` when the delta text `t` was extracted. -/
def parseDeltaContent (payload : List Char) : Option (Option (List Char)) :=
  match jsonParse payload with
  | none => none
  | some j => some (deltaContent j)

/-! ## The stream driver (`streamChat`, source lines 78-148) -/

def sDataPrefix : String := "data: "

def sDoneSentinel : String := "[DONE]"

/-- What the streaming loop does with one reassembled logical line
(source lines 90-117): skip comment/blank/non-data lines and decoded
frames without a usable delta, stop on the `[DONE]` sentinel, re-inject
on a decode failure, or apply a non-empty delta. -/
inductive LineAction where
  | skip
  | stop
  | reinject
  | apply (t : List Char)
deriving DecidableEq

/-- Classification and decoding of one CR-stripped logical line, in the
source's order: line 90 (comment / blank), line 91 (data prefix), line 93
(payload extraction), line 94 (sentinel), lines 99-117 (decode and apply,
or catch). -/
def lineAction (line : List Char) : LineAction :=
  if line.head? = some ':' ∨ trim line = [] then .skip
  else if sDataPrefix.data.isPrefixOf line then
    let jsonStr := trim (line.drop 6)
    if jsonStr = sDoneSentinel.data then .stop
    else
      match parseDeltaContent jsonStr with
      | none => .reinject
      | some none => .skip
      | some (some t) => if t = [] then .skip else .apply t
  else .skip

/-- The inner `while ((newlineIndex = textBuffer.indexOf("\n")) !== -1)`
loop (source lines 85-118), fuelled for structural recursion: from the
accumulated assistant text and the text buffer, returns the new text, the
new buffer, and whether `streamDone` was set.  One unit of fuel per
extracted line suffices, since each line consumes at least its
terminator. -/
def procBuf : Nat → List Char → List Char → List Char × List Char × Bool
  | 0, content, buffer => (content, buffer, false)
  | f + 1, content, buffer =>
    match splitFirstNL buffer with
    | none => (content, buffer, false)
    | some (raw, rest) =>
      let line := stripCR raw
      match lineAction line with
      | .skip => procBuf f content rest
      | .stop => (content, rest, true)
      | .reinject => (content, line ++ '\n' :: rest, false)
      | .apply t => procBuf f (content ++ t) rest

/-- One pass of the inner line-processing loop over a buffer. -/
def processBuffer (content buffer : List Char) : List Char × List Char × Bool :=
  procBuf buffer.length content buffer

/-- The outer `while (!streamDone)` read loop (source lines 78-119): each
chunk is appended to the buffer and the buffer is processed; once
`streamDone` is set no further chunk is read. -/
def runLoop : List Char → List Char → Bool → List (List Char) → List Char × List Char × Bool
  | content, buffer, dn, [] => (content, buffer, dn)
  | content, buffer, dn, c :: cs =>
    if dn then (content, buffer, dn)
    else
      let r := processBuffer content (buffer ++ c)
      runLoop r.1 r.2.1 r.2.2 cs

/-- One line of the final flush (source lines 123-146).  Unlike the
streaming loop it does not strip a trailing CR, skips the sentinel, and
silently ignores decode failures. -/
def flushLine (content raw : List Char) : List Char :=
  if raw = [] ∨ raw.head? = some ':' ∨ trim raw = [] then content
  else if sDataPrefix.data.isPrefixOf raw then
    let jsonStr := trim (raw.drop 6)
    if jsonStr = sDoneSentinel.data then content
    else
      match parseDeltaContent jsonStr with
      | some (some t) => if t = [] then content else content ++ t
      | _ => content
  else content

/-- JavaScript `textBuffer.split("\n")`. -/
def splitOnNL : List Char → List (List Char)
  | [] => [[]]
  | c :: cs =>
    if c = '\n' then [] :: splitOnNL cs
    else
      match splitOnNL cs with
      | [] => [[c]]
      | h :: t => (c :: h) :: t

/-- The final flush pass (source lines 121-148): when the residual buffer
is not blank, every split line is decoded and surviving deltas are
appended. -/
def finalFlush (content buffer : List Char) : List Char :=
  if trim buffer = [] then content
  else (splitOnNL buffer).foldl flushLine content

/-- The complete stream-consumption pipeline of `streamChat`: run the
read loop over the transport chunks starting from an empty text and
buffer, then apply the final flush; the result is the final
AssistantMessage text. -/
def finalText (chunks : List (List Char)) : List Char :=
  let r := runLoop [] [] false chunks
  finalFlush r.1 r.2.1

/-! ## The surrounding request driver (source lines 27-161) -/

/-- Message roles, `"user" | "assistant"`. -/
inductive Role where
  | user
  | assistant
deriving DecidableEq

/-- The `Message` record of the source. -/
structure Message where
  role : Role
  content : List Char
deriving DecidableEq

/-- The user-facing notification categories raised through `toast`. -/
inductive ToastKind where
  | rateLimited
  | creditsExhausted
  | genericError
deriving DecidableEq

/-- The observable outcome of one `fetch` and its body stream: the HTTP
status, whether a body is present, the chunks the transport delivers, and
whether the read following the last delivered chunk rejects instead of
reporting a clean end of stream. -/
structure Response where
  status : Nat
  hasBody : Bool
  chunks : List (List Char)
  readError : Bool
deriving DecidableEq

/-- `response.ok`: status in the 2xx range. -/
def respOk (r : Response) : Bool :=
  decide (200 ≤ r.status) && decide (r.status < 300)

/-- The UI state `streamChat` leaves behind: the messages array, the
loading flag, and the notifications raised during the call. -/
structure UIState where
  messages : List Message
  isLoading : Bool
  toasts : List ToastKind
deriving DecidableEq

/-- The `setMessages` functional update applied on every delta (source
lines 105-112 and the identical lines 135-142): copy the array and
overwrite the last element's content with the accumulated text, but only
when that element's role is assistant. -/
def applyContentUpdate : List Message → List Char → List Message
  | [], _ => []
  | [m], c => if m.role = .assistant then [⟨.assistant, c⟩] else [m]
  | m :: m2 :: rest, c => m :: applyContentUpdate (m2 :: rest) c

/-- The whole of `streamChat` (source lines 27-161) as a function from
the prior conversation, the new user text and the transport outcome to
the final UI state.  The optimistic user append is line 28; the 429 and
402 early returns are lines 46-64; the generic non-ok and missing-body
throws reach the catch at lines 149-158, which removes the last message;
the assistant placeholder append is line 76; a read rejection after
streaming began reaches the same catch; the finally at line 159 clears
the loading flag everywhere. -/
def streamChat (prior : List Message) (userMessage : List Char)
    (resp : Response) : UIState :=
  let withUser := prior ++ [⟨.user, userMessage⟩]
  if respOk resp = false then
    if resp.status = 429 then ⟨withUser, false, [.rateLimited]⟩
    else if resp.status = 402 then ⟨withUser, false, [.creditsExhausted]⟩
    else ⟨withUser.dropLast, false, [.genericError]⟩
  else if resp.hasBody = false then ⟨withUser.dropLast, false, [.genericError]⟩
  else
    let withAssistant := withUser ++ [⟨.assistant, []⟩]
    let r := runLoop [] [] false resp.chunks
    if r.2.2 = false && resp.readError then
      ⟨(applyContentUpdate withAssistant r.1).dropLast, false, [.genericError]⟩
    else
      ⟨applyContentUpdate withAssistant (finalFlush r.1 r.2.1), false, []⟩

/-! ## The line reassembler in isolation (source lines 84-89) -/

/-- Extraction of all complete, CR-stripped logical lines from a buffer,
fuelled like `procBuf`. -/
def extractB : Nat → List Char → List (List Char) × List Char
  | 0, b => ([], b)
  | f + 1, b =>
    match splitFirstNL b with
    | none => ([], b)
    | some (raw, rest) =>
      let p := extractB f rest
      (stripCR raw :: p.1, p.2)

/-- The line reassembler's `feed`: all complete logical lines of a
buffer, and the held-back remainder. -/
def extractLines (b : List Char) : List (List Char) × List Char :=
  extractB b.length b

/-- Feeding a sequence of chunks through the reassembler, threading the
held-back remainder. -/
def runLines : List Char → List (List Char) → List (List Char) × List Char
  | buf, [] => ([], buf)
  | buf, c :: cs =>
    let p := extractLines (buf ++ c)
    let q := runLines p.2 cs
    (p.1 ++ q.1, q.2)

/-- All logical lines the reassembler emits over a chunk sequence. -/
def lineOutputs (cs : List (List Char)) : List (List Char) :=
  (runLines [] cs).1

/-! ## Well-formed streams -/

/-- Well-formedness of the remaining stream bytes, fuelled like
`procBuf`: every complete logical line decodes without failure (no
re-injection is ever needed), and if the `[DONE]` sentinel occurs, the
stream ends exactly at its terminator. -/
def goodB : Nat → List Char → Bool
  | 0, _ => true
  | f + 1, s =>
    match splitFirstNL s with
    | none => true
    | some (raw, rest) =>
      match lineAction (stripCR raw) with
      | .reinject => false
      | .stop => rest.isEmpty
      | _ => goodB f rest

/-- A well-formed stream: every complete line decodes, and nothing
follows the sentinel. -/
def good (s : List Char) : Bool := goodB s.length s

/-! ## Fuel irrelevance and unfolding lemmas -/

theorem procBuf_nil (f : Nat) (content : List Char) :
    procBuf f content [] = (content, [], false) := by
  cases f <;> rfl

theorem procBuf_mono : ∀ f g content buffer, buffer.length ≤ f →
    buffer.length ≤ g → procBuf f content buffer = procBuf g content buffer := by
  intro f
  induction f with
  | zero =>
    intro g content buffer hf _
    have hb : buffer = [] := List.length_eq_zero.mp (Nat.le_zero.mp hf)
    subst hb
    rw [procBuf_nil, procBuf_nil]
  | succ f ih =>
    intro g content buffer hf hg
    cases g with
    | zero =>
      have hb : buffer = [] := List.length_eq_zero.mp (Nat.le_zero.mp hg)
      subst hb
      rw [procBuf_nil, procBuf_nil]
    | succ g' =>
      cases hs : splitFirstNL buffer with
      | none => simp only [procBuf, hs]
      | some p =>
        obtain ⟨raw, rest⟩ := p
        have hlen : rest.length < buffer.length := splitFirstNL_length hs
        simp only [procBuf, hs]
        cases la : lineAction (stripCR raw) with
        | skip => exact ih g' content rest (by omega) (by omega)
        | stop => rfl
        | reinject => rfl
        | apply t => exact ih g' (content ++ t) rest (by omega) (by omega)

theorem processBuffer_nil (content : List Char) :
    processBuffer content [] = (content, [], false) := procBuf_nil _ _

theorem processBuffer_none {buffer : List Char} (content : List Char)
    (h : splitFirstNL buffer = none) :
    processBuffer content buffer = (content, buffer, false) := by
  cases buffer with
  | nil => exact processBuffer_nil content
  | cons c cs => simp only [processBuffer, List.length_cons, procBuf, h]

theorem processBuffer_skip {buffer raw rest : List Char} (content : List Char)
    (hs : splitFirstNL buffer = some (raw, rest))
    (la : lineAction (stripCR raw) = .skip) :
    processBuffer content buffer = processBuffer content rest := by
  cases buffer with
  | nil => simp at hs
  | cons c cs =>
    have hlen : rest.length < cs.length + 1 := splitFirstNL_length hs
    simp only [processBuffer, List.length_cons, procBuf, hs, la]
    exact procBuf_mono _ _ _ _ (by omega) (le_refl _)

theorem processBuffer_stop {buffer raw rest : List Char} (content : List Char)
    (hs : splitFirstNL buffer = some (raw, rest))
    (la : lineAction (stripCR raw) = .stop) :
    processBuffer content buffer = (content, rest, true) := by
  cases buffer with
  | nil => simp at hs
  | cons c cs => simp only [processBuffer, List.length_cons, procBuf, hs, la]

theorem processBuffer_reinject {buffer raw rest : List Char} (content : List Char)
    (hs : splitFirstNL buffer = some (raw, rest))
    (la : lineAction (stripCR raw) = .reinject) :
    processBuffer content buffer = (content, stripCR raw ++ '\n' :: rest, false) := by
  cases buffer with
  | nil => simp at hs
  | cons c cs => simp only [processBuffer, List.length_cons, procBuf, hs, la]

theorem processBuffer_apply {buffer raw rest t : List Char} (content : List Char)
    (hs : splitFirstNL buffer = some (raw, rest))
    (la : lineAction (stripCR raw) = .apply t) :
    processBuffer content buffer = processBuffer (content ++ t) rest := by
  cases buffer with
  | nil => simp at hs
  | cons c cs =>
    have hlen : rest.length < cs.length + 1 := splitFirstNL_length hs
    simp only [processBuffer, List.length_cons, procBuf, hs, la]
    exact procBuf_mono _ _ _ _ (by omega) (le_refl _)

theorem goodB_mono : ∀ f g s, s.length ≤ f → s.length ≤ g →
    goodB f s = goodB g s := by
  intro f
  induction f with
  | zero =>
    intro g s hf _
    have hb : s = [] := List.length_eq_zero.mp (Nat.le_zero.mp hf)
    subst hb
    cases g <;> rfl
  | succ f ih =>
    intro g s hf hg
    cases g with
    | zero =>
      have hb : s = [] := List.length_eq_zero.mp (Nat.le_zero.mp hg)
      subst hb
      rfl
    | succ g' =>
      cases hs : splitFirstNL s with
      | none => simp only [goodB, hs]
      | some p =>
        obtain ⟨raw, rest⟩ := p
        have hlen : rest.length < s.length := splitFirstNL_length hs
        simp only [goodB, hs]
        cases la : lineAction (stripCR raw) with
        | skip => exact ih g' rest (by omega) (by omega)
        | stop => rfl
        | reinject => rfl
        | apply t => exact ih g' rest (by omega) (by omega)

theorem good_of_none {s : List Char} (h : splitFirstNL s = none) :
    good s = true := by
  cases s with
  | nil => rfl
  | cons c cs => simp only [good, List.length_cons, goodB, h]

theorem good_reinject {s raw rest : List Char}
    (hs : splitFirstNL s = some (raw, rest))
    (la : lineAction (stripCR raw) = .reinject) : good s = false := by
  cases s with
  | nil => simp at hs
  | cons c cs => simp only [good, List.length_cons, goodB, hs, la]

theorem good_stop {s raw rest : List Char}
    (hs : splitFirstNL s = some (raw, rest))
    (la : lineAction (stripCR raw) = .stop) : good s = rest.isEmpty := by
  cases s with
  | nil => simp at hs
  | cons c cs => simp only [good, List.length_cons, goodB, hs, la]

theorem good_skip {s raw rest : List Char}
    (hs : splitFirstNL s = some (raw, rest))
    (la : lineAction (stripCR raw) = .skip) : good s = good rest := by
  cases s with
  | nil => simp at hs
  | cons c cs =>
    have hlen : rest.length < cs.length + 1 := splitFirstNL_length hs
    simp only [good, List.length_cons, goodB, hs, la]
    exact goodB_mono _ _ _ (by omega) (le_refl _)

theorem good_apply {s raw rest t : List Char}
    (hs : splitFirstNL s = some (raw, rest))
    (la : lineAction (stripCR raw) = .apply t) : good s = good rest := by
  cases s with
  | nil => simp at hs
  | cons c cs =>
    have hlen : rest.length < cs.length + 1 := splitFirstNL_length hs
    simp only [good, List.length_cons, goodB, hs, la]
    exact goodB_mono _ _ _ (by omega) (le_refl _)

/-! ## Composition of buffer processing over chunk boundaries -/

/-- Processing a well-formed buffer extended by later bytes factors
through processing the buffer alone: either the sentinel fired (and
well-formedness forces the remainder empty) or processing continues into
the leftover plus the extension. -/
theorem processBuffer_append : ∀ n buf content extra, buf.length ≤ n →
    good (buf ++ extra) = true →
    processBuffer content (buf ++ extra) =
      (if (processBuffer content buf).2.2 then processBuffer content buf
       else processBuffer (processBuffer content buf).1
              ((processBuffer content buf).2.1 ++ extra)) := by
  intro n
  induction n with
  | zero =>
    intro buf content extra hf _
    have hb : buf = [] := List.length_eq_zero.mp (Nat.le_zero.mp hf)
    subst hb
    rw [processBuffer_nil]
    simp
  | succ n ih =>
    intro buf content extra hf hg
    cases hs : splitFirstNL buf with
    | none =>
      rw [processBuffer_none content hs]
      simp
    | some p =>
      obtain ⟨raw, rest⟩ := p
      have hse : splitFirstNL (buf ++ extra) = some (raw, rest ++ extra) :=
        splitFirstNL_append_some hs
      have hlen : rest.length < buf.length := splitFirstNL_length hs
      cases la : lineAction (stripCR raw) with
      | skip =>
        rw [processBuffer_skip content hse la, processBuffer_skip content hs la]
        have hg' : good (rest ++ extra) = true := by
          rw [← good_skip hse la]; exact hg
        exact ih rest content extra (by omega) hg'
      | stop =>
        have hemp : (rest ++ extra).isEmpty = true := by
          rw [← good_stop hse la]; exact hg
        have : rest = [] ∧ extra = [] := by
          simpa [List.isEmpty_iff, List.append_eq_nil] using hemp
        obtain ⟨h1, h2⟩ := this
        subst h1; subst h2
        rw [processBuffer_stop content hse la, processBuffer_stop content hs la]
        simp
      | reinject =>
        have : good (buf ++ extra) = false := good_reinject hse la
        rw [this] at hg; cases hg
      | apply t =>
        rw [processBuffer_apply content hse la, processBuffer_apply content hs la]
        have hg' : good (rest ++ extra) = true := by
          rw [← good_apply hse la]; exact hg
        exact ih rest (content ++ t) extra (by omega) hg'

/-- On a well-formed stream, when the sentinel has not fired the leftover
buffer contains no line feed: every complete line was consumed. -/
theorem processBuffer_noNL : ∀ n buf content extra, buf.length ≤ n →
    good (buf ++ extra) = true →
    (processBuffer content buf).2.2 = false →
    '\n' ∉ (processBuffer content buf).2.1 := by
  intro n
  induction n with
  | zero =>
    intro buf content extra hf _ _
    have hb : buf = [] := List.length_eq_zero.mp (Nat.le_zero.mp hf)
    subst hb
    rw [processBuffer_nil]
    simp
  | succ n ih =>
    intro buf content extra hf hg hdn
    cases hs : splitFirstNL buf with
    | none =>
      rw [processBuffer_none content hs]
      exact splitFirstNL_eq_none.mp hs
    | some p =>
      obtain ⟨raw, rest⟩ := p
      have hse : splitFirstNL (buf ++ extra) = some (raw, rest ++ extra) :=
        splitFirstNL_append_some hs
      have hlen : rest.length < buf.length := splitFirstNL_length hs
      cases la : lineAction (stripCR raw) with
      | skip =>
        rw [processBuffer_skip content hs la] at hdn ⊢
        have hg' : good (rest ++ extra) = true := by
          rw [← good_skip hse la]; exact hg
        exact ih rest content extra (by omega) hg' hdn
      | stop => rw [processBuffer_stop content hs la] at hdn; cases hdn
      | reinject =>
        have : good (buf ++ extra) = false := good_reinject hse la
        rw [this] at hg; cases hg
      | apply t =>
        rw [processBuffer_apply content hs la] at hdn ⊢
        have hg' : good (rest ++ extra) = true := by
          rw [← good_apply hse la]; exact hg
        exact ih rest (content ++ t) extra (by omega) hg' hdn

/-- Well-formedness of the remaining input descends to the leftover
buffer plus the not-yet-delivered bytes. -/
theorem good_after_processBuffer : ∀ n buf content extra, buf.length ≤ n →
    good (buf ++ extra) = true →
    (processBuffer content buf).2.2 = false →
    good ((processBuffer content buf).2.1 ++ extra) = true := by
  intro n
  induction n with
  | zero =>
    intro buf content extra hf hg _
    have hb : buf = [] := List.length_eq_zero.mp (Nat.le_zero.mp hf)
    subst hb
    rw [processBuffer_nil]
    simpa using hg
  | succ n ih =>
    intro buf content extra hf hg hdn
    cases hs : splitFirstNL buf with
    | none =>
      rw [processBuffer_none content hs]
      exact hg
    | some p =>
      obtain ⟨raw, rest⟩ := p
      have hse : splitFirstNL (buf ++ extra) = some (raw, rest ++ extra) :=
        splitFirstNL_append_some hs
      have hlen : rest.length < buf.length := splitFirstNL_length hs
      cases la : lineAction (stripCR raw) with
      | skip =>
        rw [processBuffer_skip content hs la] at hdn ⊢
        have hg' : good (rest ++ extra) = true := by
          rw [← good_skip hse la]; exact hg
        exact ih rest content extra (by omega) hg' hdn
      | stop => rw [processBuffer_stop content hs la] at hdn; cases hdn
      | reinject =>
        have : good (buf ++ extra) = false := good_reinject hse la
        rw [this] at hg; cases hg
      | apply t =>
        rw [processBuffer_apply content hs la] at hdn ⊢
        have hg' : good (rest ++ extra) = true := by
          rw [← good_apply hse la]; exact hg
        exact ih rest (content ++ t) extra (by omega) hg' hdn

/-- Once `streamDone` is set, the read loop consumes nothing further. -/
theorem runLoop_stop (cs : List (List Char)) (content buffer : List Char) :
    runLoop content buffer true cs = (content, buffer, true) := by
  cases cs <;> simp [runLoop]

/-- One step of the read loop. -/
theorem runLoop_cons (content buffer c : List Char) (cs : List (List Char)) :
    runLoop content buffer false (c :: cs) =
      runLoop (processBuffer content (buffer ++ c)).1
        (processBuffer content (buffer ++ c)).2.1
        (processBuffer content (buffer ++ c)).2.2 cs := by
  simp [runLoop]

/-- The read loop over any chunk delivery of a well-formed stream agrees
with one processing pass over the whole stream. -/
theorem runLoop_flatten : ∀ cs buf content, '\n' ∉ buf →
    good (buf ++ cs.flatten) = true →
    runLoop content buf false cs = processBuffer content (buf ++ cs.flatten) := by
  intro cs
  induction cs with
  | nil =>
    intro buf content hnl _
    rw [List.flatten_nil, List.append_nil, runLoop,
      processBuffer_none content (splitFirstNL_eq_none.mpr hnl)]
  | cons c cs ih =>
    intro buf content hnl hg
    have hflat : buf ++ (c :: cs).flatten = (buf ++ c) ++ cs.flatten := by
      rw [List.flatten_cons, List.append_assoc]
    rw [hflat] at hg ⊢
    rw [processBuffer_append (buf ++ c).length (buf ++ c) content cs.flatten
      (le_refl _) hg, runLoop_cons]
    cases hdn : (processBuffer content (buf ++ c)).2.2 with
    | true =>
      rw [if_pos rfl, runLoop_stop]
      simp [Prod.ext_iff, hdn]
    | false =>
      rw [if_neg (by simp)]
      exact ih _ _
        (processBuffer_noNL (buf ++ c).length (buf ++ c) content cs.flatten
          (le_refl _) hg hdn)
        (good_after_processBuffer (buf ++ c).length (buf ++ c) content
          cs.flatten (le_refl _) hg hdn)

/-- Any chunk delivery of a well-formed stream produces the same final
text as delivering the stream in one chunk. -/
theorem finalText_eq_single {s : List Char} {cs : List (List Char)}
    (hg : good s = true) (h : cs.flatten = s) :
    finalText cs = finalText [s] := by
  have h1 : runLoop [] [] false cs = processBuffer [] s := by
    have := runLoop_flatten cs [] [] (by simp) (by rw [List.nil_append, h]; exact hg)
    rwa [List.nil_append, h] at this
  have h2 : runLoop [] [] false [s] = processBuffer [] s := by
    have := runLoop_flatten [s] [] [] (by simp)
      (by simp only [List.flatten_cons, List.flatten_nil, List.nil_append,
            List.append_nil]; exact hg)
    rwa [List.flatten_cons, List.flatten_nil, List.nil_append,
      List.append_nil] at this
  rw [finalText, finalText, h1, h2]

/-! ## The line reassembler's chunking invariance -/

theorem extractB_nil (f : Nat) : extractB f [] = ([], []) := by
  cases f <;> rfl

theorem extractB_mono : ∀ f g b, b.length ≤ f → b.length ≤ g →
    extractB f b = extractB g b := by
  intro f
  induction f with
  | zero =>
    intro g b hf _
    have hb : b = [] := List.length_eq_zero.mp (Nat.le_zero.mp hf)
    subst hb
    rw [extractB_nil, extractB_nil]
  | succ f ih =>
    intro g b hf hg
    cases g with
    | zero =>
      have hb : b = [] := List.length_eq_zero.mp (Nat.le_zero.mp hg)
      subst hb
      rw [extractB_nil, extractB_nil]
    | succ g' =>
      cases hs : splitFirstNL b with
      | none => simp only [extractB, hs]
      | some p =>
        obtain ⟨raw, rest⟩ := p
        have hlen : rest.length < b.length := splitFirstNL_length hs
        simp only [extractB, hs]
        rw [ih g' rest (by omega) (by omega)]

theorem extractLines_none {b : List Char} (h : splitFirstNL b = none) :
    extractLines b = ([], b) := by
  cases b with
  | nil => rfl
  | cons c cs => simp only [extractLines, List.length_cons, extractB, h]

theorem extractLines_cons {b raw rest : List Char}
    (hs : splitFirstNL b = some (raw, rest)) :
    extractLines b =
      (stripCR raw :: (extractLines rest).1, (extractLines rest).2) := by
  cases b with
  | nil => simp at hs
  | cons c cs =>
    have hlen : rest.length < cs.length + 1 := splitFirstNL_length hs
    simp only [extractLines, List.length_cons, extractB, hs]
    rw [extractB_mono cs.length rest.length rest (by omega) (le_refl _)]

theorem extractLines_noNL_rem : ∀ n b, b.length ≤ n →
    '\n' ∉ (extractLines b).2 := by
  intro n
  induction n with
  | zero =>
    intro b hf
    have hb : b = [] := List.length_eq_zero.mp (Nat.le_zero.mp hf)
    subst hb
    simp [extractLines, extractB_nil]
  | succ n ih =>
    intro b hf
    cases hs : splitFirstNL b with
    | none =>
      rw [extractLines_none hs]
      exact splitFirstNL_eq_none.mp hs
    | some p =>
      obtain ⟨raw, rest⟩ := p
      have hlen : rest.length < b.length := splitFirstNL_length hs
      rw [extractLines_cons hs]
      exact ih rest (by omega)

theorem extractLines_append : ∀ n a b, a.length ≤ n →
    extractLines (a ++ b) =
      ((extractLines a).1 ++ (extractLines ((extractLines a).2 ++ b)).1,
       (extractLines ((extractLines a).2 ++ b)).2) := by
  intro n
  induction n with
  | zero =>
    intro a b hf
    have hb : a = [] := List.length_eq_zero.mp (Nat.le_zero.mp hf)
    subst hb
    simp [extractLines, extractB_nil]
  | succ n ih =>
    intro a b hf
    cases hs : splitFirstNL a with
    | none =>
      rw [extractLines_none hs]
      simp
    | some p =>
      obtain ⟨raw, rest⟩ := p
      have hse : splitFirstNL (a ++ b) = some (raw, rest ++ b) :=
        splitFirstNL_append_some hs
      have hlen : rest.length < a.length := splitFirstNL_length hs
      rw [extractLines_cons hse, extractLines_cons hs,
        ih rest b (by omega)]
      simp

theorem runLines_flatten : ∀ cs buf, '\n' ∉ buf →
    runLines buf cs = extractLines (buf ++ cs.flatten) := by
  intro cs
  induction cs with
  | nil =>
    intro buf hnl
    rw [List.flatten_nil, List.append_nil, runLines,
      extractLines_none (splitFirstNL_eq_none.mpr hnl)]
  | cons c cs ih =>
    intro buf hnl
    have hflat : buf ++ (c :: cs).flatten = (buf ++ c) ++ cs.flatten := by
      rw [List.flatten_cons, List.append_assoc]
    rw [hflat, runLines,
      extractLines_append (buf ++ c).length (buf ++ c) cs.flatten (le_refl _),
      ih (extractLines (buf ++ c)).2
        (extractLines_noNL_rem (buf ++ c).length (buf ++ c) (le_refl _))]

/-! ## Monotonicity of the accumulated text -/

theorem procBuf_grows : ∀ f content buffer,
    content <+: (procBuf f content buffer).1 := by
  intro f
  induction f with
  | zero => intro content buffer; exact List.prefix_refl _
  | succ f ih =>
    intro content buffer
    cases hs : splitFirstNL buffer with
    | none => simp only [procBuf, hs]; exact List.prefix_refl _
    | some p =>
      obtain ⟨raw, rest⟩ := p
      simp only [procBuf, hs]
      cases la : lineAction (stripCR raw) with
      | skip => exact ih content rest
      | stop => exact List.prefix_refl _
      | reinject => exact List.prefix_refl _
      | apply t => exact (List.prefix_append content t).trans (ih (content ++ t) rest)

theorem processBuffer_grows (content buffer : List Char) :
    content <+: (processBuffer content buffer).1 := procBuf_grows _ _ _

theorem runLoop_grows : ∀ cs content buffer dn,
    content <+: (runLoop content buffer dn cs).1 := by
  intro cs
  induction cs with
  | nil => intro content buffer dn; exact List.prefix_refl _
  | cons c cs ih =>
    intro content buffer dn
    cases dn with
    | true => rw [runLoop_stop]
    | false =>
      rw [runLoop_cons]
      exact (processBuffer_grows content (buffer ++ c)).trans (ih _ _ _)

theorem flushLine_grows (content raw : List Char) :
    content <+: flushLine content raw := by
  by_cases h1 : raw = [] ∨ raw.head? = some ':' ∨ trim raw = []
  · simp [flushLine, h1]
  · by_cases h2 : sDataPrefix.data.isPrefixOf raw
    · by_cases h3 : trim (raw.drop 6) = sDoneSentinel.data
      · simp [flushLine, h1, h2, h3]
      · cases hp : parseDeltaContent (trim (raw.drop 6)) with
        | none => simp [flushLine, h1, h2, h3, hp]
        | some o =>
          cases o with
          | none => simp [flushLine, h1, h2, h3, hp]
          | some t =>
            by_cases h4 : t = []
            · simp [flushLine, h1, h2, h3, hp, h4]
            · have : flushLine content raw = content ++ t := by
                simp [flushLine, h1, h2, h3, hp, h4]
              rw [this]
              exact List.prefix_append _ _
    · simp [flushLine, h1, h2]

theorem foldl_flushLine_grows : ∀ (L : List (List Char)) (content : List Char),
    content <+: L.foldl flushLine content := by
  intro L
  induction L with
  | nil => intro content; exact List.prefix_refl _
  | cons raw L ih =>
    intro content
    rw [List.foldl_cons]
    exact (flushLine_grows content raw).trans (ih _)

theorem finalFlush_grows (content buffer : List Char) :
    content <+: finalFlush content buffer := by
  unfold finalFlush
  split
  · exact List.prefix_refl _
  · exact foldl_flushLine_grows _ _

/-- A flush line mutates the text only by appending a successfully
decoded non-empty delta. -/
theorem flushLine_mutation {content raw : List Char}
    (h : flushLine content raw ≠ content) :
    ∃ t, parseDeltaContent (trim (raw.drop 6)) = some (some t) ∧ t ≠ [] ∧
      flushLine content raw = content ++ t := by
  by_cases h1 : raw = [] ∨ raw.head? = some ':' ∨ trim raw = []
  · simp [flushLine, h1] at h
  · by_cases h2 : sDataPrefix.data.isPrefixOf raw
    · by_cases h3 : trim (raw.drop 6) = sDoneSentinel.data
      · simp [flushLine, h1, h2, h3] at h
      · cases hp : parseDeltaContent (trim (raw.drop 6)) with
        | none => simp [flushLine, h1, h2, h3, hp] at h
        | some o =>
          cases o with
          | none => simp [flushLine, h1, h2, h3, hp] at h
          | some t =>
            by_cases h4 : t = []
            · simp [flushLine, h1, h2, h3, hp, h4] at h
            · exact ⟨t, rfl, h4, by simp [flushLine, h1, h2, h3, hp, h4]⟩
    · simp [flushLine, h1, h2] at h

/-- The streaming loop applies text only from a line that decoded to a
non-empty delta. -/
theorem lineAction_apply_inv {line t : List Char}
    (h : lineAction line = .apply t) :
    parseDeltaContent (trim (line.drop 6)) = some (some t) ∧ t ≠ [] ∧
      sDataPrefix.data.isPrefixOf line = true := by
  by_cases h1 : line.head? = some ':' ∨ trim line = []
  · simp [lineAction, h1] at h
  · by_cases h2 : sDataPrefix.data.isPrefixOf line
    · by_cases h3 : trim (line.drop 6) = sDoneSentinel.data
      · simp [lineAction, h1, h2, h3] at h
      · cases hp : parseDeltaContent (trim (line.drop 6)) with
        | none => simp [lineAction, h1, h2, h3, hp] at h
        | some o =>
          cases o with
          | none => simp [lineAction, h1, h2, h3, hp] at h
          | some t' =>
            by_cases h4 : t' = []
            · simp [lineAction, h1, h2, h3, hp, h4] at h
            · have ht : t' = t := by
                simpa [lineAction, h1, h2, h3, hp, h4] using h
              subst ht
              exact ⟨rfl, h4, h2⟩
    · simp [lineAction, h1, h2] at h

/-! ## Final-flush helpers -/

theorem splitOnNL_noNL {b : List Char} (h : '\n' ∉ b) : splitOnNL b = [b] := by
  induction b with
  | nil => rfl
  | cons c cs ih =>
    simp only [List.mem_cons, not_or] at h
    obtain ⟨hc, hcs⟩ := h
    rw [splitOnNL, if_neg (Ne.symm hc), ih hcs]

theorem trim_cons_ne_nil {c : Char} {cs : List Char} (h : isWsC c = false) :
    trim (c :: cs) ≠ [] := by
  intro hcontra
  have h1 : trimStart (c :: cs) = c :: cs := by
    simp [trimStart, List.dropWhile_cons, h]
  rw [trim, h1] at hcontra
  have h2 : (c :: cs).reverse.dropWhile isWsC = [] := by
    have := congrArg List.reverse hcontra
    simpa [trimEnd] using this
  have h3 : ∀ x ∈ (c :: cs).reverse, isWsC x = true :=
    List.dropWhile_eq_nil_iff.mp h2
  have := h3 c (by simp)
  rw [h] at this
  cases this

/-! ## The stuck-line behaviour of the re-injection path -/

/-- A line whose decode fails is re-extracted identically on every later
chunk: the loop's text never changes again and the line stays at the head
of the buffer, with all later bytes accumulating behind it. -/
theorem runLoop_stuck : ∀ cs content line rest, '\n' ∉ line →
    stripCR line = line → lineAction line = .reinject →
    runLoop content (line ++ '\n' :: rest) false cs =
      (content, line ++ '\n' :: (rest ++ cs.flatten), false) := by
  intro cs
  induction cs with
  | nil => intro content line rest _ _ _; simp [runLoop]
  | cons c cs ih =>
    intro content line rest hnl hstrip hla
    rw [runLoop_cons]
    have hb : (line ++ '\n' :: rest) ++ c = line ++ '\n' :: (rest ++ c) := by
      simp
    have hsp : splitFirstNL ((line ++ '\n' :: rest) ++ c)
        = some (line, rest ++ c) := by
      rw [hb]; exact splitFirstNL_of_noNL hnl _
    have hpb : processBuffer content ((line ++ '\n' :: rest) ++ c)
        = (content, line ++ '\n' :: (rest ++ c), false) := by
      rw [processBuffer_reinject content hsp (by rw [hstrip]; exact hla), hstrip]
    rw [hpb, ih content line (rest ++ c) hnl hstrip hla]
    simp

/-! ## Frame conditions of the accumulator update -/

theorem getLast?_cons_of_ne {α : Type} (a : α) :
    ∀ {l : List α}, l ≠ [] → (a :: l).getLast? = l.getLast?
  | [], h => absurd rfl h
  | _ :: _, _ => rfl

theorem dropLast_cons_of_ne {α : Type} (a : α) :
    ∀ {l : List α}, l ≠ [] → (a :: l).dropLast = a :: l.dropLast
  | [], h => absurd rfl h
  | _ :: _, _ => rfl

theorem applyContentUpdate_length : ∀ (msgs : List Message) (c : List Char),
    (applyContentUpdate msgs c).length = msgs.length := by
  intro msgs c
  induction msgs with
  | nil => rfl
  | cons m rest ih =>
    cases rest with
    | nil => by_cases hr : m.role = .assistant <;> simp [applyContentUpdate, hr]
    | cons m2 rest2 =>
      show (m :: applyContentUpdate (m2 :: rest2) c).length = _
      simp only [List.length_cons, ih]

theorem applyContentUpdate_ne_nil {msgs : List Message} {c : List Char}
    (h : msgs ≠ []) : applyContentUpdate msgs c ≠ [] := by
  intro hcon
  have hl := applyContentUpdate_length msgs c
  rw [hcon] at hl
  exact h (List.length_eq_zero.mp hl.symm)

theorem applyContentUpdate_dropLast : ∀ (msgs : List Message) (c : List Char),
    (applyContentUpdate msgs c).dropLast = msgs.dropLast := by
  intro msgs c
  induction msgs with
  | nil => rfl
  | cons m rest ih =>
    cases rest with
    | nil => by_cases hr : m.role = .assistant <;> simp [applyContentUpdate, hr]
    | cons m2 rest2 =>
      show (m :: applyContentUpdate (m2 :: rest2) c).dropLast = _
      rw [dropLast_cons_of_ne m (applyContentUpdate_ne_nil (by simp)),
        dropLast_cons_of_ne m (by simp), ih]

theorem applyContentUpdate_lastRole : ∀ (msgs : List Message) (c : List Char),
    (applyContentUpdate msgs c).getLast?.map Message.role
      = msgs.getLast?.map Message.role := by
  intro msgs c
  induction msgs with
  | nil => rfl
  | cons m rest ih =>
    cases rest with
    | nil => by_cases hr : m.role = .assistant <;> simp [applyContentUpdate, hr]
    | cons m2 rest2 =>
      show ((m :: applyContentUpdate (m2 :: rest2) c).getLast?.map Message.role) = _
      rw [getLast?_cons_of_ne m (applyContentUpdate_ne_nil (by simp)),
        getLast?_cons_of_ne m (by simp), ih]

theorem applyContentUpdate_non_assistant : ∀ (msgs : List Message) (c : List Char)
    (m : Message), msgs.getLast? = some m → m.role ≠ .assistant →
    applyContentUpdate msgs c = msgs := by
  intro msgs c
  induction msgs with
  | nil => intro m hm _; cases hm
  | cons m0 rest ih =>
    cases rest with
    | nil =>
      intro m hm hr
      have : m0 = m := by simpa using hm
      subst this
      simp [applyContentUpdate, hr]
    | cons m2 rest2 =>
      intro m hm hr
      rw [getLast?_cons_of_ne m0 (by simp)] at hm
      show m0 :: applyContentUpdate (m2 :: rest2) c = _
      rw [ih m hm hr]

theorem applyContentUpdate_assistant : ∀ (msgs : List Message) (c : List Char)
    (m : Message), msgs.getLast? = some m → m.role = .assistant →
    applyContentUpdate msgs c = msgs.dropLast ++ [⟨.assistant, c⟩] := by
  intro msgs c
  induction msgs with
  | nil => intro m hm _; cases hm
  | cons m0 rest ih =>
    cases rest with
    | nil =>
      intro m hm hr
      have : m0 = m := by simpa using hm
      subst this
      simp [applyContentUpdate, hr]
    | cons m2 rest2 =>
      intro m hm hr
      rw [getLast?_cons_of_ne m0 (by simp)] at hm
      show m0 :: applyContentUpdate (m2 :: rest2) c = _
      rw [ih m hm hr, dropLast_cons_of_ne m0 (by simp)]
      rfl

/-! ## Concrete protocol samples used by witnesses and counterexamples -/

def sHi : String := "Hi"

def sQ : String := "q"

def sSentinelLine : String := "data: [DONE]"

def wStream : String :=
  "data: \x7b\"choices\":[\x7b\"delta\":\x7b\"content\":\"Hello\"\x7d\x7d]\x7d\ndata: [DONE]\n"

def wChunkA : String := "data: \x7b\"choices\":[\x7b\"delta\":\x7b\"content\":\"He"

def wChunkB : String := "llo\"\x7d\x7d]\x7d\nda"

def wChunkC : String := "ta: [DONE]\n"

def c2Stream : String :=
  "data: [DONE]\ndata: \x7b\"choices\":[\x7b\"delta\":\x7b\"content\":\"X\"\x7d\x7d]\x7d\n"

def c3ChunkA : String :=
  "data: \x7b\"choices\":[\x7b\"delta\":\x7b\"content\":\"He\"\n"

def c3ChunkB : String := "\x7d\x7d]\x7d\n"

def c3ChunkC : String := "data: [DONE]\n"

def wLineBad : String := "data: \x7b"

def wP1 : String := "data: \x7b\"choices\":[\x7b\"delta\":\x7b\"content\":\"Hi"

def wP2 : String := "\"\x7d\x7d]\x7d"

def dHiChunk : String :=
  "data: \x7b\"choices\":[\x7b\"delta\":\x7b\"content\":\"Hi\"\x7d\x7d]\x7d\n"

def c6Chunk : String :=
  "data: \x7b\"choices\":[\x7b\"delta\":\x7b\"content\":\"Hi\"\x7d\x7d]\x7d"

def c6Json : String :=
  "\x7b\"choices\":[\x7b\"delta\":\x7b\"content\":\"Hi\"\x7d\x7d]\x7d"

def sDataPrefixTail : String := "ata: "

def r429 : Response := ⟨429, true, [], false⟩

def r402 : Response := ⟨402, true, [], false⟩

def rFailStream : Response := ⟨200, true, [dHiChunk.data], true⟩

/-! ## Claims -/

/-- C1: for every well-formed input byte stream and every way of
partitioning it into transport chunks (split points may fall inside a
line, inside a data payload, or exactly on a terminator), the
stream-driver loop of `streamChat` yields the same final AssistantMessage
text. -/
theorem c1_chunking_invariance {s : List Char} {cs1 cs2 : List (List Char)}
    (hg : good s = true) (h1 : cs1.flatten = s) (h2 : cs2.flatten = s) :
    finalText cs1 = finalText cs2 :=
  (finalText_eq_single hg h1).trans (finalText_eq_single hg h2).symm

/-- Witness for C1: a concrete stream delivered whole versus split inside
the data payload and across the sentinel line. -/
theorem c1_chunking_invariance_witness :
    good wStream.data = true ∧
    ([wChunkA.data, wChunkB.data, wChunkC.data] : List (List Char)).flatten
      = wStream.data ∧
    finalText [wChunkA.data, wChunkB.data, wChunkC.data]
      = finalText [wStream.data] :=
  ⟨by decide, by decide,
    @c1_chunking_invariance wStream.data
      [wChunkA.data, wChunkB.data, wChunkC.data] [wStream.data]
      (by decide) (by decide) (by decide)⟩

/-- C2 counterexample: a data line that follows the `[DONE]` sentinel in
the same buffered batch still contributes to the final text — the stream
below applies no delta before the sentinel, yet the final text is
`X`, because the final flush processes the buffered remainder. -/
theorem c2_counterexample : finalText [c2Stream.data] = ['X'] := by decide

/-- C2 amended: decoding the sentinel stops the streaming loop at once —
the loop's accumulated text is unchanged and the rest of the batch is
left untouched in the buffer — but that remainder is then handed to the
final flush, which can still apply deltas from data lines that followed
the sentinel. -/
theorem c2_sentinel_stops_loop (content rest : List Char) :
    processBuffer content (sSentinelLine.data ++ '\n' :: rest)
      = (content, rest, true) ∧
    finalText [sSentinelLine.data ++ '\n' :: rest] = finalFlush [] rest := by
  have hsp : splitFirstNL (sSentinelLine.data ++ '\n' :: rest)
      = some (sSentinelLine.data, rest) :=
    splitFirstNL_of_noNL (by decide) rest
  have hla : lineAction (stripCR sSentinelLine.data) = .stop := by decide
  refine ⟨processBuffer_stop content hsp hla, ?_⟩
  have h3 : runLoop [] [] false [sSentinelLine.data ++ '\n' :: rest]
      = ([], rest, true) := by
    rw [runLoop_cons, List.nil_append, processBuffer_stop [] hsp hla]
    exact runLoop_stop [] [] rest
  simp only [finalText, h3]

/-- C3 counterexample: a payload split across chunks at an embedded line
feed makes the extracted line fail decoding; the completing bytes arrive
in the next chunk, yet the delta is dropped (applied zero times, not
exactly once): the final text is empty. -/
theorem c3_counterexample :
    finalText [c3ChunkA.data, c3ChunkB.data, c3ChunkC.data] = [] := by decide

/-- C3 amended: when decoding of an extracted line fails, the loop
re-injects the CR-stripped raw line at the head of the unprocessed buffer
and stops the batch; later chunks append behind the re-injected line's
terminator, so the same line is re-extracted and fails forever — its
delta is never applied.  A payload split across chunks with no
intervening line feed is instead held undecoded in the buffer and its
delta is applied exactly once when the terminator arrives. -/
theorem c3_reinjection (content line rest p1 p2 t : List Char)
    (cs : List (List Char)) :
    ('\n' ∉ line → lineAction (stripCR line) = .reinject →
      processBuffer content (line ++ '\n' :: rest)
        = (content, stripCR line ++ '\n' :: rest, false)) ∧
    ('\n' ∉ line → stripCR line = line → lineAction line = .reinject →
      runLoop content (line ++ '\n' :: rest) false cs
        = (content, line ++ '\n' :: (rest ++ cs.flatten), false)) ∧
    ('\n' ∉ p1 → '\n' ∉ p2 → lineAction (stripCR (p1 ++ p2)) = .apply t →
      runLoop content [] false [p1, p2 ++ ['\n']]
        = (content ++ t, [], false)) := by
  refine ⟨?_, ?_, ?_⟩
  · intro hnl hla
    exact processBuffer_reinject content (splitFirstNL_of_noNL hnl rest) hla
  · intro hnl hstrip hla
    exact runLoop_stuck cs content line rest hnl hstrip hla
  · intro hp1 hp2 hla
    have e1 : processBuffer content ([] ++ p1) = (content, p1, false) := by
      rw [List.nil_append]
      exact processBuffer_none content (splitFirstNL_eq_none.mpr hp1)
    rw [runLoop_cons, e1]
    show runLoop content p1 false [p2 ++ ['\n']] = (content ++ t, [], false)
    rw [runLoop_cons]
    have hsp : splitFirstNL (p1 ++ (p2 ++ ['\n'])) = some (p1 ++ p2, []) := by
      have hassoc : p1 ++ (p2 ++ ['\n'])
          = (p1 ++ p2) ++ '\n' :: ([] : List Char) := by simp
      rw [hassoc]
      exact splitFirstNL_of_noNL (by simp [List.mem_append, hp1, hp2]) []
    have e2 : processBuffer content (p1 ++ (p2 ++ ['\n']))
        = (content ++ t, [], false) := by
      rw [processBuffer_apply content hsp hla, processBuffer_nil]
    rw [e2]
    show runLoop (content ++ t) [] false [] = (content ++ t, [], false)
    rfl

/-- Witness for C3 amended, at a concrete undecodable line and a concrete
split payload. -/
theorem c3_reinjection_witness :
    processBuffer [] (wLineBad.data ++ '\n' :: [])
      = ([], stripCR wLineBad.data ++ '\n' :: [], false) ∧
    runLoop [] (wLineBad.data ++ '\n' :: []) false [['z']]
      = ([], wLineBad.data ++ '\n' :: ([] ++ ([['z']] : List (List Char)).flatten),
         false) ∧
    runLoop [] [] false [wP1.data, wP2.data ++ ['\n']]
      = ([] ++ sHi.data, [], false) := by
  obtain ⟨a, b, c⟩ :=
    c3_reinjection [] wLineBad.data [] wP1.data wP2.data sHi.data [['z']]
  exact ⟨a (by decide) (by decide),
    b (by decide) (by decide) (by decide),
    c (by decide) (by decide) (by decide)⟩

/-- C4 counterexample: on the rate-limit status 429 the optimistically
appended user turn is NOT removed — the final messages still end with the
user turn while the RateLimited notification is raised. -/
theorem c4_counterexample :
    streamChat [] sQ.data r429
      = ⟨[⟨.user, sQ.data⟩], false, [.rateLimited]⟩ := by decide

/-- C4 amended: on 429 no AssistantMessage is created and a RateLimited
notification is raised, but the user turn remains in the history; 402
likewise surfaces its own credit-exhaustion category with the user turn
retained; every other non-success status collapses to a generic transport
failure and removes the user turn. -/
theorem c4_status_handling (prior : List Message) (u : List Char)
    (resp : Response) (h : respOk resp = false) :
    (resp.status = 429 → streamChat prior u resp
       = ⟨prior ++ [⟨.user, u⟩], false, [.rateLimited]⟩) ∧
    (resp.status = 402 → streamChat prior u resp
       = ⟨prior ++ [⟨.user, u⟩], false, [.creditsExhausted]⟩) ∧
    (resp.status ≠ 429 → resp.status ≠ 402 → streamChat prior u resp
       = ⟨prior, false, [.genericError]⟩) := by
  refine ⟨?_, ?_, ?_⟩
  · intro h429
    simp [streamChat, h, h429]
  · intro h402
    have hne : resp.status ≠ 429 := by omega
    simp [streamChat, h, h402, hne]
  · intro h1 h2
    simp [streamChat, h, h1, h2]

/-- Witness for C4 amended at the quota-exhaustion status. -/
theorem c4_status_handling_witness :
    respOk r402 = false ∧
    streamChat [] sQ.data r402
      = ⟨[⟨.user, sQ.data⟩], false, [.creditsExhausted]⟩ :=
  ⟨by decide, (c4_status_handling [] sQ.data r402 (by decide)).2.1 (by decide)⟩

/-- C5: evaluation of the code at the failing input.  The transport read
rejects after the assistant placeholder was created and the delta `Hi`
was applied; the catch path (source line 157, `prev.slice(0, -1)`)
removes the LAST message — the partially accumulated assistant message —
keeping the user turn, contrary to the source's own comment (`Remove the
user message on error`) and to the spec's retention policy. -/
theorem c5_partial_reply_dropped :
    streamChat [] sQ.data rFailStream
      = ⟨[⟨.user, sQ.data⟩], false, [.genericError]⟩ := by decide

/-- C6: if the transport signals completion while the buffer still holds
a data line with no trailing newline (and no `[DONE]` sentinel was seen,
so the loop ended with the done flag unset), the final flush decodes the
residual line and appends its delta to the final AssistantMessage
text. -/
theorem c6_flush_trailing {chunks : List (List Char)} {content j t : List Char}
    (h1 : runLoop [] [] false chunks = (content, sDataPrefix.data ++ j, false))
    (h2 : '\n' ∉ j) (h3 : trim j ≠ sDoneSentinel.data)
    (h4 : parseDeltaContent (trim j) = some (some t)) (h5 : t ≠ []) :
    finalText chunks = content ++ t := by
  have hcons : sDataPrefix.data ++ j = 'd' :: (sDataPrefixTail.data ++ j) := rfl
  have hne : sDataPrefix.data ++ j ≠ [] := by rw [hcons]; simp
  have hhead : (sDataPrefix.data ++ j).head? = some 'd' := by rw [hcons]; rfl
  have htrim : trim (sDataPrefix.data ++ j) ≠ [] := by
    rw [hcons]; exact trim_cons_ne_nil (by decide)
  have hpre : sDataPrefix.data.isPrefixOf (sDataPrefix.data ++ j) = true := by
    rw [ List.isPrefixOf_iff_prefix]
    exact List.prefix_append _ _
  have hdrop : (sDataPrefix.data ++ j).drop 6 = j := by
    have hl : sDataPrefix.data.length = 6 := by decide
    rw [← hl, List.drop_left]
  have hnlbuf : '\n' ∉ sDataPrefix.data ++ j := by
    intro hmem
    rcases List.mem_append.mp hmem with hm | hm
    · exact absurd hm (by decide)
    · exact h2 hm
  have hline : flushLine content (sDataPrefix.data ++ j) = content ++ t := by
    simp [flushLine, hne, hhead, htrim, hpre, hdrop, h3, h4, h5]
  have hflush : finalFlush content (sDataPrefix.data ++ j) = content ++ t := by
    rw [finalFlush, if_neg htrim, splitOnNL_noNL hnlbuf, List.foldl_cons,
      List.foldl_nil, hline]
  simp only [finalText, h1]
  exact hflush

/-- Witness for C6: a single chunk holding one unterminated data line. -/
theorem c6_flush_trailing_witness :
    finalText [c6Chunk.data] = [] ++ sHi.data :=
  @c6_flush_trailing [c6Chunk.data] [] c6Json.data sHi.data
    (by decide) (by decide) (by decide) (by decide) (by decide)

/-- C7: a carriage-return/line-feed terminator split exactly across two
chunks (the CR ends one chunk, the LF begins the next) makes the line
reassembler emit exactly the same logical lines as when the terminator
arrives inside one chunk — in particular no spurious empty line: line
detection searches for the line feed only, and the trailing carriage
return is stripped from the emitted line afterwards. -/
theorem c7_crlf_split (pre : List (List Char)) (a b : List Char)
    (post : List (List Char)) :
    lineOutputs (pre ++ [a ++ ['\r'], '\n' :: b] ++ post)
      = lineOutputs (pre ++ [a ++ '\r' :: '\n' :: b] ++ post) := by
  have hf : ((pre ++ [a ++ ['\r'], '\n' :: b] ++ post).flatten : List Char)
      = (pre ++ [a ++ '\r' :: '\n' :: b] ++ post).flatten := by
    simp [List.flatten_append]
  rw [lineOutputs, lineOutputs, runLines_flatten _ _ (by simp),
    runLines_flatten _ _ (by simp), List.nil_append, List.nil_append, hf]

/-- C8: during one stream the AssistantMessage text only grows by
appending: through the processing loop, the read loop and the final
flush the prior text is a prefix of the new text, and a mutation can only
come from a successfully decoded non-empty delta. -/
theorem c8_monotone_append (content buffer raw : List Char)
    (cs : List (List Char)) (dn : Bool) :
    content <+: (processBuffer content buffer).1 ∧
    content <+: (runLoop content buffer dn cs).1 ∧
    content <+: finalFlush content buffer ∧
    (flushLine content raw ≠ content →
      ∃ t, parseDeltaContent (trim (raw.drop 6)) = some (some t) ∧ t ≠ [] ∧
        flushLine content raw = content ++ t) ∧
    (∀ t, lineAction raw = .apply t →
      parseDeltaContent (trim (raw.drop 6)) = some (some t) ∧ t ≠ []) :=
  ⟨processBuffer_grows _ _, runLoop_grows _ _ _ _, finalFlush_grows _ _,
    fun h => flushLine_mutation h,
    fun _ h => ⟨(lineAction_apply_inv h).1, (lineAction_apply_inv h).2.1⟩⟩

/-- Witness for C8 at concrete data. -/
theorem c8_monotone_append_witness :
    ([] : List Char) <+: (processBuffer [] dHiChunk.data).1 ∧
    sHi.data <+: (runLoop sHi.data [] false [dHiChunk.data]).1 :=
  ⟨(c8_monotone_append [] dHiChunk.data [] [] false).1,
   (c8_monotone_append sHi.data [] [] [dHiChunk.data] false).2.1⟩

/-- C9: every exit path of `streamChat` — the 429 and 402 early returns,
the generic non-success and missing-body throws, a mid-stream transport
failure, and normal completion — leaves the loading flag cleared, so the
driver can accept the next send. -/
theorem c9_loading_cleared (prior : List Message) (u : List Char)
    (resp : Response) : (streamChat prior u resp).isLoading = false := by
  dsimp only [streamChat]
  repeat' split
  all_goals rfl

/-- C10: applying a decoded delta mutates only the last element of the
history and only when its role is assistant: the length, all earlier
messages and the last element's role are unchanged, a non-assistant last
message is left entirely untouched, and an assistant last message only
has its content replaced. -/
theorem c10_frame (msgs : List Message) (c : List Char) (m : Message) :
    (applyContentUpdate msgs c).length = msgs.length ∧
    (applyContentUpdate msgs c).dropLast = msgs.dropLast ∧
    (applyContentUpdate msgs c).getLast?.map Message.role
      = msgs.getLast?.map Message.role ∧
    (msgs.getLast? = some m → m.role ≠ .assistant →
      applyContentUpdate msgs c = msgs) ∧
    (msgs.getLast? = some m → m.role = .assistant →
      applyContentUpdate msgs c = msgs.dropLast ++ [⟨.assistant, c⟩]) :=
  ⟨applyContentUpdate_length msgs c, applyContentUpdate_dropLast msgs c,
   applyContentUpdate_lastRole msgs c,
   applyContentUpdate_non_assistant msgs c m,
   applyContentUpdate_assistant msgs c m⟩

/-- Witness for C10 at a two-message history ending in an assistant
placeholder. -/
theorem c10_frame_witness :
    applyContentUpdate [⟨.user, sQ.data⟩, ⟨.assistant, []⟩] sHi.data
      = ([⟨Role.user, sQ.data⟩, ⟨Role.assistant, []⟩] : List Message).dropLast
          ++ [⟨Role.assistant, sHi.data⟩] :=
  (c10_frame [⟨.user, sQ.data⟩, ⟨.assistant, []⟩] sHi.data
    ⟨.assistant, []⟩).2.2.2.2 (by decide) rfl

end Garam
